import Mathlib

/-!
Shallow embedding of the scout-sdk content-segmentation and result-ranking
core (`src/services/ContentProcessor.ts`, `src/OpenRAGClient.ts`).

Modelling conventions:
* JS strings are `List Char` (`Str`); `String` literals enter via `.toList`.
  (JS `.length` counts UTF-16 units; for the inputs considered here, which
  are in the BMP, this agrees with the codepoint count used below.)
* JS numbers used as indices are `Nat`, or `Int` where the source can drive
  them negative (`splitLongText` window starts, brace counters).
* Similarity scores are `ℚ`; the float literals 1.1, 0.9, 1.2, 1.15, 1.05,
  0.1 of the source are read as exact rationals, and the fractional loop
  thresholds `0.8 * maxEnd`, `0.9 * maxEnd` of `findTextBreakPoint` are read
  as exact rational comparisons (`5*i > 5*start + 4*maxEnd` etc.).
* Loops without a structural measure (`splitLongText`'s `while`, which the
  source does not guarantee to terminate) take explicit fuel and return
  `Option`; `none` marks fuel exhaustion.
* Chunk records: the source attaches `id`, crypto hashes and `dependencies`
  metadata to each chunk; none of the claims concern those fields, so chunks
  are modelled by their `content` (plus, for the code splitters, the line
  range recorded in the id as `_<startLine>_<endLine>`, kept as a ghost
  `ranges` log for the coverage statements).
-/

/-- JS strings modelled as character lists. -/
abbrev Str := List Char

/-- Membership test for the JS whitespace class `\s` (ASCII members; the
unicode space members do not occur in any input considered here). -/
def jsWs (c : Char) : Bool :=
  c = ' ' || c = '\t' || c = '\n' || c = '\r' || c = '\x0b' || c = '\x0c'

/-- JS `String.prototype.trim`: strip leading and trailing `\s` characters. -/
def jsTrim (s : Str) : Str :=
  ((s.dropWhile jsWs).reverse.dropWhile jsWs).reverse

/-- JS `String.prototype.toLowerCase` (ASCII range, as exercised here). -/
def lowerStr (s : Str) : Str := s.map Char.toLower

/-- JS `content.split('\n')`: split at every newline, keeping empty pieces. -/
def splitOnNl : Str → List Str
  | [] => [[]]
  | c :: rest =>
    if c = '\n' then [] :: splitOnNl rest
    else
      match splitOnNl rest with
      | [] => [[c]]
      | t :: ts => (c :: t) :: ts

/-- JS `lines.join('\n')`. -/
def joinNl (ls : List Str) : Str := List.intercalate ['\n'] ls

/-- JS `hay.includes(needle)`: substring containment. -/
def jsIncludes (hay needle : Str) : Bool :=
  needle.isPrefixOf hay ||
    match hay with
    | [] => false
    | _ :: t => jsIncludes t needle

/-- Auxiliary worker for `splitWsRuns`; the fuel is the untouched input
length, which bounds the number of steps, so the fuel-0 fallback is
unreachable. -/
def splitWsAux : Nat → Str → Str → List Str
  | 0, s, cur => [cur.reverse ++ s]
  | _ + 1, [], cur => [cur.reverse]
  | fuel + 1, c :: rest, cur =>
    if jsWs c then cur.reverse :: splitWsAux fuel (rest.dropWhile jsWs) []
    else splitWsAux fuel rest (c :: cur)

/-- JS `s.split(/\s+/)`: split on maximal whitespace runs; a leading or
trailing run contributes an empty piece, and `"".split(/\s+/) = [""]`. -/
def splitWsRuns (s : Str) : List Str := splitWsAux s.length s []

/-- JS character indexing `text[i]`: `none` models `undefined`. -/
def charAt (s : Str) (i : Int) : Option Char :=
  if 0 ≤ i ∧ i < s.length then some (s.getD i.toNat ' ') else none

/-- Clamp an integer index into `[0, len]`, as JS `substring` does. -/
def clampIdx (len : Nat) (i : Int) : Nat := min i.toNat len

/-- JS `text.substring(a, b)`: clamp both indices to `[0, len]`, swap if
out of order, and take the span between them. -/
def jsSubstring (s : Str) (a b : Int) : Str :=
  let x := clampIdx s.length a
  let y := clampIdx s.length b
  (s.drop (min x y)).take (max x y - min x y)

/-- JS `text.substring(a)` (to end of string). -/
def jsSubstringFrom (s : Str) (a : Int) : Str :=
  s.drop (clampIdx s.length a)

/-- Segmentation configuration (`OpenRAGConfig.processing`).  The
`ContentProcessor` constructor maps absent or zero fields to the defaults
8192 / 200 (`||` on a falsy value), so both fields are at least 1 in any
state the constructor can produce; theorems that need this take it as an
explicit hypothesis. -/
structure Config where
  maxChunkSize : Nat
  chunkOverlap : Nat
deriving DecidableEq, Repr

/-! Language-specific structure-start patterns (`isFunctionStart`,
`isClassStart`, `isStructureStart` of `ContentProcessor`).  Each JS regular
expression is anchored at the start of the trimmed line; the matchers below
replay them with maximal-munch consumption, which coincides with the
regexes' backtracking semantics because every adjacent pair of pieces draws
from disjoint character classes (analysed pattern by pattern at the
definitions). -/

/-- JS `\w` word-character class `[A-Za-z0-9_]`. -/
def isWordChar (c : Char) : Bool := c.isAlphanum || c = '_'

/-- Consume a literal keyword, or fail. -/
def eatLit (lit s : Str) : Option Str :=
  if lit.isPrefixOf s then some (s.drop lit.length) else none

/-- Consume one-or-more characters of a class (`\s+`, `\w+`), or fail. -/
def eatClass1 (p : Char → Bool) (s : Str) : Option Str :=
  match s with
  | [] => none
  | c :: _ => if p c then some (s.dropWhile p) else none

/-- Consume an optional `(kw\s+)?` group; if the keyword is present but not
followed by whitespace the group fails and consumes nothing, exactly as the
regex backtracks out of the optional group. -/
def eatOptKwWs (kw : String) (s : Str) : Str :=
  match eatLit kw.toList s with
  | some s1 =>
    match eatClass1 jsWs s1 with
    | some s2 => s2
    | none => s
  | none => s

/-- Tail `kw\s+\w…`: the keyword, mandatory whitespace, then a word char. -/
def kwWsWord (kw : String) (s : Str) : Bool :=
  match eatLit kw.toList s with
  | some s1 =>
    match eatClass1 jsWs s1 with
    | some s2 =>
      match s2 with
      | [] => false
      | c :: _ => isWordChar c
    | none => false
  | none => false

/-- Pattern `^(export\s+)?(async\s+)?(function|const|let|var)\s+\w+` (TS/JS
function form 1).  No two alternation keywords are prefixes of one another,
so at most one can consume. -/
def tsFunPatA (s : Str) : Bool :=
  let s1 := eatOptKwWs "export" s
  let s2 := eatOptKwWs "async" s1
  ["function", "const", "let", "var"].any fun kw => kwWsWord kw s2

/-- Pattern `^\w+\s*\([^)]*\)\s*:\s*\w+\s*=>` (TS/JS arrow-function form). -/
def tsFunPatB (s : Str) : Bool :=
  match eatClass1 isWordChar s with
  | none => false
  | some s1 =>
    match s1.dropWhile jsWs with
    | '(' :: s3 =>
      match s3.dropWhile (fun c => !(c = ')')) with
      | ')' :: s5 =>
        match s5.dropWhile jsWs with
        | ':' :: s7 =>
          match eatClass1 isWordChar (s7.dropWhile jsWs) with
          | none => false
          | some s9 => "=>".toList.isPrefixOf (s9.dropWhile jsWs)
        | _ => false
      | _ => false
    | _ => false

/-- Tail of the Java/C# method pattern: `\w+\s*\([^)]*\)\s*{`. -/
def javaFunTail (s : Str) : Bool :=
  match eatClass1 isWordChar s with
  | none => false
  | some s1 =>
    match s1.dropWhile jsWs with
    | '(' :: s3 =>
      match s3.dropWhile (fun c => !(c = ')')) with
      | ')' :: s5 =>
        match s5.dropWhile jsWs with
        | '{' :: _ => true
        | _ => false
      | _ => false
    | _ => false

/-- Does the predicate hold of some suffix?  Replays `.*p`: the dot matches
everything but a newline, and split lines contain no newline. -/
def anySuffixB (p : Str → Bool) : Str → Bool
  | [] => p []
  | c :: rest => p (c :: rest) || anySuffixB p rest

/-- Pattern `^\s*(public|private|protected|static).*\w+\s*\([^)]*\)\s*{`
(Java/C# method form). -/
def javaFunPat (s : Str) : Bool :=
  let s0 := s.dropWhile jsWs
  ["public", "private", "protected", "static"].any fun kw =>
    match eatLit kw.toList s0 with
    | some r => anySuffixB javaFunTail r
    | none => false

/-- Pattern `^(export\s+)?(abstract\s+)?class\s+\w+` (TS/JS class form). -/
def tsClassPat (s : Str) : Bool :=
  kwWsWord "class" (eatOptKwWs "abstract" (eatOptKwWs "export" s))

/-- Pattern `^\s*(public|private|protected)?\s*(abstract\s+)?class\s+\w+`
(Java/C# class form).  Consuming a present visibility keyword never loses a
match: if one is a prefix of the line, the skip branch would immediately
fail on `abstract`/`class`. -/
def javaClassPat (s : Str) : Bool :=
  let s0 := s.dropWhile jsWs
  let s1 :=
    match (["public", "private", "protected"].map String.toList).find?
        (fun kw => kw.isPrefixOf s0) with
    | some kw => s0.drop kw.length
    | none => s0
  kwWsWord "class" (eatOptKwWs "abstract" (s1.dropWhile jsWs))

/-- Source `ContentProcessor.isFunctionStart`. -/
def isFunctionStart (line : Str) (lang : Str) : Bool :=
  let t := jsTrim line
  if lang == "typescript".toList || lang == "javascript".toList then
    tsFunPatA t || tsFunPatB t
  else if lang == "python".toList then kwWsWord "def" t
  else if lang == "java".toList || lang == "csharp".toList then javaFunPat t
  else false

/-- Source `ContentProcessor.isClassStart`. -/
def isClassStart (line : Str) (lang : Str) : Bool :=
  let t := jsTrim line
  if lang == "typescript".toList || lang == "javascript".toList then
    tsClassPat t
  else if lang == "python".toList then kwWsWord "class" t
  else if lang == "java".toList || lang == "csharp".toList then javaClassPat t
  else false

/-- Source `ContentProcessor.isStructureStart`. -/
def isStructureStart (line : Str) (lang : Str) : Bool :=
  isFunctionStart line lang || isClassStart line lang

/-- Source `ContentProcessor.supportsStructuralChunking`. -/
def supportsStructuralChunking (lang : Str) : Bool :=
  (["typescript", "javascript", "python", "java", "cpp", "c", "csharp"].map
    String.toList).any (fun l => l == lang)

/-- Brace-level update over one line: `+1` per `{`, `-1` per `}`. -/
def braceAfter (b : Int) (line : Str) : Int :=
  line.foldl (fun b c => if c = '{' then b + 1 else if c = '}' then b - 1 else b) b

/-! Structural code splitter (`ContentProcessor.chunkByCodeStructure` with
`addCodeChunk`). -/

/-- A code chunk: its content and the line range baked into its id
(`id = baseInfo.id ++ "_" ++ startLine ++ "_" ++ endLine`); the remaining
metadata fields (size, hash, dependencies) play no part in the claims. -/
structure CodeChunk where
  content : Str
  startLine : Nat
  endLine : Nat
deriving DecidableEq, Repr

/-- Source `ContentProcessor.addCodeChunk`: append a chunk built from the given
lines unless its content is whitespace-only. -/
def addCodeChunk (chunks : List CodeChunk) (ls : List Str) (s e : Nat) :
    List CodeChunk :=
  let content := joinNl ls
  if (jsTrim content).length = 0 then chunks else chunks ++ [⟨content, s, e⟩]

/-- Loop state of `chunkByCodeStructure`.  `ranges` is a ghost log of every
`addCodeChunk` call (whether or not it appended), used to state the
no-loss/coverage property; it has no counterpart in the source. -/
structure CSState where
  chunks : List CodeChunk
  ranges : List (Nat × Nat)
  currentChunk : List Str
  chunkStart : Nat
  braceLevel : Int
  inFunction : Bool
  inClass : Bool
deriving DecidableEq, Repr

/-- Start of each `chunkByCodeStructure` iteration: push the line and track
the brace level across it. -/
def csPush (st : CSState) (line : Str) : CSState :=
  { st with currentChunk := st.currentChunk ++ [line],
            braceLevel := braceAfter st.braceLevel line }

/-- Structure-start branch of the loop body (operating on the state with
the current line already pushed, as the source does): close the previous
chunk if it exists and open a new one at this line. -/
def csStructStart (lang : Str) (st : CSState) (i : Nat) (line : Str) :
    CSState :=
  if isStructureStart line lang then
    if 1 < st.currentChunk.length then
      ⟨addCodeChunk st.chunks st.currentChunk.dropLast st.chunkStart (i - 1),
        st.ranges ++ [(st.chunkStart, i - 1)], [line], i, st.braceLevel,
        isFunctionStart line lang, isClassStart line lang⟩
    else
      ⟨st.chunks, st.ranges, [line], i, st.braceLevel,
        isFunctionStart line lang, isClassStart line lang⟩
  else st

/-- Function/class-end branch: flush when the brace level returns to zero
on a line ending in `}` while inside a function or class. -/
def csClose (st : CSState) (i : Nat) (line : Str) : CSState :=
  if (st.inFunction || st.inClass) && st.braceLevel = 0 &&
      ['}'].isSuffixOf (jsTrim line) then
    ⟨addCodeChunk st.chunks st.currentChunk st.chunkStart i,
      st.ranges ++ [(st.chunkStart, i)], [], i + 1, st.braceLevel,
      false, false⟩
  else st

/-- Oversize force-split branch. -/
def csForce (cfg : Config) (st : CSState) (i : Nat) : CSState :=
  if cfg.maxChunkSize < (joinNl st.currentChunk).length then
    ⟨addCodeChunk st.chunks st.currentChunk st.chunkStart i,
      st.ranges ++ [(st.chunkStart, i)], [], i + 1, st.braceLevel,
      st.inFunction, st.inClass⟩
  else st

/-- One iteration of the `chunkByCodeStructure` line loop, at line index
`i`: push and count braces, then the three branches in source order. -/
def csStep (cfg : Config) (lang : Str) (st : CSState) (i : Nat) (line : Str) :
    CSState :=
  csForce cfg (csClose (csStructStart lang (csPush st line) i line) i line) i

/-- The `chunkByCodeStructure` line loop, carrying the running index. -/
def csLoop (cfg : Config) (lang : Str) : Nat → List Str → CSState → CSState
  | _, [], st => st
  | i, line :: rest, st => csLoop cfg lang (i + 1) rest (csStep cfg lang st i line)

/-- Source `ContentProcessor.chunkByCodeStructure`, final state after the trailing
flush. -/
def codeStructureFull (cfg : Config) (lang : Str) (content : Str) : CSState :=
  let lines := splitOnNl content
  let st := csLoop cfg lang 0 lines ⟨[], [], [], 0, 0, false, false⟩
  if 0 < st.currentChunk.length then
    { st with
        chunks := addCodeChunk st.chunks st.currentChunk st.chunkStart (lines.length - 1),
        ranges := st.ranges ++ [(st.chunkStart, lines.length - 1)] }
  else st

/-- Source `ContentProcessor.chunkByCodeStructure` (emitted chunks). -/
def chunkByCodeStructure (cfg : Config) (lang : Str) (content : Str) :
    List CodeChunk :=
  (codeStructureFull cfg lang content).chunks

/-! Line-fallback splitter (`ContentProcessor.chunkByLines` with
`findNaturalBreakPoint`). -/

/-- Break-point test on one (trimmed) line of `findNaturalBreakPoint`:
blank line, lone closing brace, statement terminator, comment opener, or a
declaration keyword at line start (`/^(export|import|const|let|var|function|class|interface)/`). -/
def naturalBreakCond (l : Str) : Bool :=
  let t := jsTrim l
  t == [] || t == ['}'] || [';'].isSuffixOf t ||
    "//".toList.isPrefixOf t || "/*".toList.isPrefixOf t ||
    ['*'].isPrefixOf t ||
    (["export", "import", "const", "let", "var", "function", "class",
      "interface"].map String.toList).any (fun kw => kw.isPrefixOf t)

/-- Source `ContentProcessor.findNaturalBreakPoint`: scan indices
`n-1, n-2, …, max(0, n-10)` for a line passing `naturalBreakCond`; default
to the last line. -/
def findNaturalBreakPoint (lines : List Str) : Nat :=
  let n := lines.length
  match ((List.range (n - (n - 10))).map (fun d => n - 1 - d)).find?
      (fun i => naturalBreakCond (lines.getD i [])) with
  | some i => i
  | none => n - 1

/-- Loop state of `chunkByLines`.  `ranges` and `pos` are ghost: `pos` is
the absolute index of the first line of `currentLines`, and `ranges` logs
each emitted chunk's covered line range. -/
structure LBState where
  chunks : List Str
  ranges : List (Nat × Nat)
  currentLines : List Str
  pos : Nat
deriving DecidableEq, Repr

/-- One iteration of the `chunkByLines` loop. -/
def lbStep (cfg : Config) (st : LBState) (line : Str) : LBState :=
  let cur := st.currentLines ++ [line]
  if cfg.maxChunkSize ≤ (joinNl cur).length then
    let bp := findNaturalBreakPoint cur
    let chunkLines := cur.take (bp + 1)
    -- JS `Math.max(0, bp + 1 - Math.floor(chunkOverlap / 20))`:
    -- truncated Nat subtraction supplies the clamp to zero.
    let overlapStart := bp + 1 - cfg.chunkOverlap / 20
    ⟨st.chunks ++ [joinNl chunkLines],
      st.ranges ++ [(st.pos, st.pos + bp)],
      cur.drop overlapStart,
      st.pos + overlapStart⟩
  else ⟨st.chunks, st.ranges, cur, st.pos⟩

/-- The `chunkByLines` loop. -/
def lbLoop (cfg : Config) : List Str → LBState → LBState
  | [], st => st
  | line :: rest, st => lbLoop cfg rest (lbStep cfg st line)

/-- Source `ContentProcessor.chunkByLines`, final state after the trailing flush.
The source receives the already-split `lines` array from its caller. -/
def chunkByLinesFull (cfg : Config) (lines : List Str) : LBState :=
  let st := lbLoop cfg lines ⟨[], [], [], 0⟩
  if 0 < st.currentLines.length then
    { st with
        chunks := st.chunks ++ [joinNl st.currentLines],
        ranges := st.ranges ++ [(st.pos, lines.length - 1)] }
  else st

/-- Source `ContentProcessor.chunkByLines` (emitted chunk contents). -/
def chunkByLines (cfg : Config) (lines : List Str) : List Str :=
  (chunkByLinesFull cfg lines).chunks

/-! Oversized-paragraph splitter (`ContentProcessor.splitLongText` with
`findTextBreakPoint`). -/

/-- Sentence-boundary scan of `findTextBreakPoint`: descending from
`maxEnd - 1` while `i > start + 0.8*maxEnd` (exact-rational reading
`5*i > 5*start + 4*maxEnd`), looking for `.`/`!`/`?` followed by a space or
newline; returns `i + 1` on a hit.  The fuel over-approximates the loop
trip count, so the fuel-0 return equals the loop running to exhaustion. -/
def sentenceSearch (text : Str) (start maxEnd : Int) : Nat → Int → Option Int
  | 0, _ => none
  | fuel + 1, i =>
    if 5 * i > 5 * start + 4 * maxEnd then
      let hit :=
        (charAt text i = some '.' || charAt text i = some '!' ||
          charAt text i = some '?') &&
        (charAt text (i + 1) = some ' ' || charAt text (i + 1) = some '\n')
      if hit then some (i + 1) else sentenceSearch text start maxEnd fuel (i - 1)
    else none

/-- Word-boundary scan of `findTextBreakPoint`: descending from `maxEnd - 1`
while `i > start + 0.9*maxEnd` (`10*i > 10*start + 9*maxEnd`), looking for a
space or newline; returns `i` on a hit. -/
def wordSearch (text : Str) (start maxEnd : Int) : Nat → Int → Option Int
  | 0, _ => none
  | fuel + 1, i =>
    if 10 * i > 10 * start + 9 * maxEnd then
      if charAt text i = some ' ' || charAt text i = some '\n' then some i
      else wordSearch text start maxEnd fuel (i - 1)
    else none

/-- Fuel sufficient for either scan: an upper bound on the number of
integers strictly between the loop threshold and `maxEnd - 1`. -/
def breakSearchFuel (start maxEnd : Int) : Nat :=
  (10 * maxEnd - (10 * start + 9 * maxEnd) + 5 * maxEnd - (5 * start + 4 * maxEnd)).toNat + 2

/-- Source `ContentProcessor.findTextBreakPoint`: sentence boundary in the tail 20%
of the window, else word boundary in the tail 10%, else the hard limit
`maxEnd`. -/
def findTextBreakPoint (text : Str) (start maxEnd : Int) : Int :=
  match sentenceSearch text start maxEnd (breakSearchFuel start maxEnd) (maxEnd - 1) with
  | some bp => bp
  | none =>
    match wordSearch text start maxEnd (breakSearchFuel start maxEnd) (maxEnd - 1) with
    | some i => i
    | none => maxEnd

/-- Source `ContentProcessor.splitLongText`: the `while (start < text.length)` loop,
with explicit fuel because the source loop need not terminate (the next
window start `breakPoint - chunkOverlap` is not clamped and can move
backwards).  `none` models fuel exhaustion. -/
def splitLongText (ov : Nat) (text : Str) (maxSize : Nat) :
    Nat → Int → Option (List Str)
  | 0, _ => none
  | fuel + 1, start =>
    if start < (text.length : Int) then
      let e : Int := start + maxSize
      if (text.length : Int) ≤ e then some [jsSubstringFrom text start]
      else
        let bp := findTextBreakPoint text start e
        match splitLongText ov text maxSize fuel (bp - ov) with
        | none => none
        | some rest => some (jsSubstring text start bp :: rest)
    else some []

/-! Paragraph splitter (`ContentProcessor.chunkTextContent` with
`splitLongText`).  Chunks are modelled by their contents
(`createTextChunk` adds only id/source/metadata fields). -/

/-- Leftmost-match worker for `splitParagraphs`; fuel as in `splitWsAux`.
At a newline whose following maximal whitespace run contains another
newline, the separator `\n\s*\n` greedily extends to the last newline of
that run. -/
def splitParasAux : Nat → Str → Str → List Str
  | 0, s, cur => [cur.reverse ++ s]
  | _ + 1, [], cur => [cur.reverse]
  | fuel + 1, c :: rest, cur =>
    if c = '\n' then
      let run := rest.takeWhile jsWs
      match (((List.range run.length).map (fun d => run.length - 1 - d)).find?
          (fun t => run.getD t ' ' = '\n')) with
      | some t => cur.reverse :: splitParasAux fuel (rest.drop (t + 1)) []
      | none => splitParasAux fuel rest ('\n' :: cur)
    else splitParasAux fuel rest (c :: cur)

/-- JS `content.split(/\n\s*\n/)`. -/
def splitParagraphs (s : Str) : List Str := splitParasAux s.length s []

/-- The paragraph-accumulation loop of `chunkTextContent`. -/
def textLoop (cfg : Config) (fuel : Nat) :
    List Str → List Str → Str → Option (List Str)
  | [], chunks, cur =>
    some (if 0 < cur.length then chunks ++ [cur] else chunks)
  | p :: ps, chunks, cur =>
    if cur.length + p.length + cfg.chunkOverlap ≤ cfg.maxChunkSize then
      textLoop cfg fuel ps chunks
        (cur ++ (if 0 < cur.length then ['\n', '\n'] else []) ++ p)
    else
      let chunks1 := if 0 < cur.length then chunks ++ [cur] else chunks
      if cfg.maxChunkSize < p.length then
        match splitLongText cfg.chunkOverlap p cfg.maxChunkSize fuel 0 with
        | none => none
        | some subs => textLoop cfg fuel ps (chunks1 ++ subs) []
      else textLoop cfg fuel ps chunks1 p

/-- Source `ContentProcessor.chunkTextContent`: fast path for content within
`maxChunkSize`, else paragraph accumulation with forced sub-splitting of
oversized paragraphs. -/
def chunkTextContent (cfg : Config) (content : Str) (fuel : Nat) :
    Option (List Str) :=
  if content.length ≤ cfg.maxChunkSize then some [content]
  else textLoop cfg fuel (splitParagraphs content) [] []

/-! Markdown splitter (`ContentProcessor.chunkMarkdownContent`).  Chunks are
modelled by their contents. -/

/-- Match of `/^(#{1,6})\s+(.+)$/` against one line: a run of 1–6 `#`, at
least one whitespace character, then at least one further character (`.`
also matches non-newline whitespace, so the greedy `\s+` backs off one
character when everything after the hashes is whitespace).  Returns the
heading level and captured text. -/
def mdHeading (line : Str) : Option (Nat × Str) :=
  let k := (line.takeWhile (fun c => c = '#')).length
  let rest := line.drop k
  if 1 ≤ k ∧ k ≤ 6 ∧ 2 ≤ rest.length ∧ jsWs (rest.headD ' ') then
    let body := rest.dropWhile jsWs
    if body = [] then some (k, [rest.getLast!]) else some (k, body)
  else none

/-- The `chunkMarkdownContent` line loop; `heading` mirrors
`currentHeading` (used only for chunk metadata). -/
def mdLoop (cfg : Config) : List Str → List Str → List Str → Str → List Str
  | [], chunks, cur, _ =>
    if 0 < cur.length then chunks ++ [joinNl cur] else chunks
  | line :: rest, chunks, cur, heading =>
    match mdHeading line with
    | some (_, htext) =>
      let chunks' := if 0 < cur.length then chunks ++ [joinNl cur] else chunks
      mdLoop cfg rest chunks' [line] htext
    | none =>
      let cur' := cur ++ [line]
      if cfg.maxChunkSize < (joinNl cur').length then
        mdLoop cfg rest (chunks ++ [joinNl cur']) [] heading
      else mdLoop cfg rest chunks cur' heading

/-- Source `ContentProcessor.chunkMarkdownContent`. -/
def chunkMarkdownContent (cfg : Config) (content : Str) : List Str :=
  mdLoop cfg (splitOnNl content) [] [] []

/-! Heading-guided page splitter (`ContentProcessor.chunkByHeadings`).
Chunks are modelled by their contents. -/

/-- The candidate-heading fuzzy match of `chunkByHeadings`:
`trimmedLine === heading || trimmedLine.endsWith(heading) ||
heading.includes(trimmedLine)`. -/
def headingMatches (trimmedLine heading : Str) : Bool :=
  trimmedLine == heading || heading.isSuffixOf trimmedLine ||
    jsIncludes heading trimmedLine

/-- The `chunkByHeadings` line loop. -/
def hdLoop (cfg : Config) (headings : List Str) :
    List Str → List Str → List Str → Str → List Str
  | [], chunks, cur, _ =>
    if 0 < cur.length then
      let c := joinNl cur
      if 50 < (jsTrim c).length then chunks ++ [c] else chunks
    else chunks
  | line :: rest, chunks, cur, heading =>
    let matched := headings.find? (fun h => headingMatches (jsTrim line) h)
    match matched with
    | some h =>
      if 0 < cur.length then
        let c := joinNl cur
        let chunks' := if 50 < (jsTrim c).length then chunks ++ [c] else chunks
        hdLoop cfg headings rest chunks' [line] h
      else
        -- `matchedHeading && currentChunk.length > 0` is false: fall through
        -- to the accumulating branch.
        let cur' := cur ++ [line]
        if cfg.maxChunkSize < (joinNl cur').length then
          hdLoop cfg headings rest (chunks ++ [joinNl cur']) [] heading
        else hdLoop cfg headings rest chunks cur' heading
    | none =>
      let cur' := cur ++ [line]
      if cfg.maxChunkSize < (joinNl cur').length then
        hdLoop cfg headings rest (chunks ++ [joinNl cur']) [] heading
      else hdLoop cfg headings rest chunks cur' heading

/-- Source `ContentProcessor.chunkByHeadings`: empty candidate list short-circuits
to no chunks (the dispatcher then falls back to text chunking). -/
def chunkByHeadings (cfg : Config) (content : Str) (headings : List Str) :
    List Str :=
  if headings.length = 0 then []
  else hdLoop cfg headings (splitOnNl content) [] [] []

/-! Code-content dispatcher (`ContentProcessor.chunkCodeContent`).  The
source returns full chunk records; contents are projected where the
sub-splitters carry richer data. -/

/-- Source `ContentProcessor.chunkCodeContent`. -/
def chunkCodeContent (cfg : Config) (lang : Str) (content : Str) : List Str :=
  if content.length ≤ cfg.maxChunkSize then [content]
  else if supportsStructuralChunking lang then
    let structural := chunkByCodeStructure cfg lang content
    if 0 < structural.length then structural.map (·.content)
    else chunkByLines cfg (splitOnNl content)
  else chunkByLines cfg (splitOnNl content)

/-! Search-result ranking and diversification (`OpenRAGClient`:
`rankAndDiversifyResults`, `calculateAdjustedScore`, `diversifyResults`). -/

/-- Source kind of a search result (`source.type`). -/
inductive SType where
  | github
  | documentation
deriving DecidableEq, Repr

/-- The `source` field of a `SearchResult`. -/
structure RSource where
  url : Str
  stype : SType
  path : Option Str
  title : Option Str
deriving DecidableEq, Repr

/-- The `metadata` field of a `SearchResult`; `sectionLabel` models the
source field named `section` (a Lean keyword). -/
structure RMeta where
  language : Option Str
  sectionLabel : Option Str
  headingLevel : Option Nat
deriving DecidableEq, Repr

/-- A search result as consumed and produced by the ranker. -/
structure SearchResult where
  content : Str
  source : RSource
  metadata : RMeta
  score : ℚ
deriving DecidableEq, Repr

/-- JS truthiness of an optional string field (`undefined` and `""` are
falsy). -/
def optTruthy : Option Str → Bool
  | none => false
  | some s => !(s == [])

/-- The fixed code-signal vocabulary of `calculateAdjustedScore`. -/
def codeTerms : List Str :=
  ["function", "class", "method", "implementation", "code", "api",
    "library"].map String.toList

/-- The fixed question vocabulary of `calculateAdjustedScore`. -/
def questionWords : List Str :=
  ["how", "what", "why", "when", "where", "guide", "tutorial",
    "documentation"].map String.toList

/-- Source `OpenRAGClient.calculateAdjustedScore`, with the float constants read as
exact rationals. -/
def calculateAdjustedScore (r : SearchResult) (query : Str) : ℚ :=
  let score0 := r.score
  let score1 :=
    if 500 < r.content.length then score0 * (11 / 10)
    else if r.content.length < 100 then score0 * (9 / 10)
    else score0
  let hasCodeTerms := codeTerms.any fun term =>
    jsIncludes (lowerStr query) term || jsIncludes (lowerStr r.content) term
  let score2 :=
    if hasCodeTerms && r.source.stype = SType.github then score1 * (6 / 5)
    else score1
  let hasQuestionWords := questionWords.any fun w => jsIncludes (lowerStr query) w
  let score3 :=
    if hasQuestionWords && r.source.stype = SType.documentation then
      score2 * (23 / 20)
    else score2
  let queryWords := splitWsRuns (lowerStr query)
  let contentLower := lowerStr r.content
  let exactMatches := queryWords.countP fun w => jsIncludes contentLower w
  let exactMatchBoost : ℚ :=
    1 + ((exactMatches : ℚ) / (queryWords.length : ℚ)) * (1 / 10)
  let score4 := score3 * exactMatchBoost
  let score5 := if optTruthy r.metadata.sectionLabel then score4 * (21 / 20) else score4
  min score5 1

/-- Modelled from the spec: the exact-match factor as the spec words it,
"exact lowercase word-overlap … between the query's tokens and the
content's tokens" — a query word counts as matched only when it occurs as a
whole token of the whitespace-tokenised lowercased content (the source
instead tests substring containment in the content). -/
def specTokenMatchBoost (r : SearchResult) (query : Str) : ℚ :=
  let queryWords := splitWsRuns (lowerStr query)
  let contentTokens := splitWsRuns (lowerStr r.content)
  let matched := queryWords.countP fun w => contentTokens.any (fun t => t == w)
  1 + ((matched : ℚ) / (queryWords.length : ℚ)) * (1 / 10)

/-- Modelled from the spec: `calculateAdjustedScore` with the exact-match
factor replaced by the spec's token-overlap reading; all other factors as in
the source. -/
def calculateAdjustedScoreSpecOverlap (r : SearchResult) (query : Str) : ℚ :=
  let score0 := r.score
  let score1 :=
    if 500 < r.content.length then score0 * (11 / 10)
    else if r.content.length < 100 then score0 * (9 / 10)
    else score0
  let hasCodeTerms := codeTerms.any fun term =>
    jsIncludes (lowerStr query) term || jsIncludes (lowerStr r.content) term
  let score2 :=
    if hasCodeTerms && r.source.stype = SType.github then score1 * (6 / 5)
    else score1
  let hasQuestionWords := questionWords.any fun w => jsIncludes (lowerStr query) w
  let score3 :=
    if hasQuestionWords && r.source.stype = SType.documentation then
      score2 * (23 / 20)
    else score2
  let score4 := score3 * specTokenMatchBoost r query
  let score5 := if optTruthy r.metadata.sectionLabel then score4 * (21 / 20) else score4
  min score5 1

/-- A scored result as built inside `rankAndDiversifyResults`
(`{...result, adjustedScore}`).  `idx` is the element's position in the
input array and stands for JS object identity, which `diversifyResults`
relies on via `Array.prototype.includes`. -/
structure Scored where
  idx : Nat
  res : SearchResult
  adjustedScore : ℚ
deriving DecidableEq, Repr

/-- First pass of `OpenRAGClient.diversifyResults`: accept a result only
while fewer than 3 results with the same `source.url` have been accepted. -/
def divFirstPass : List Scored → List Scored → List Scored
  | acc, [] => acc
  | acc, r :: rest =>
    if acc.countP (fun x => x.res.source.url == r.res.source.url) < 3 then
      divFirstPass (acc ++ [r]) rest
    else divFirstPass acc rest

/-- Source `OpenRAGClient.diversifyResults`: per-source cap of 3, then backfill
from the skipped results (in rank order) up to a floor of 10. -/
def diversifyResults (results : List Scored) : List Scored :=
  let d := divFirstPass [] results
  if d.length < results.length ∧ d.length < 10 then
    let remaining := results.filter fun r => !(d.any (fun x => x.idx = r.idx))
    d ++ remaining.take (min remaining.length (10 - d.length))
  else d

/-- Source `OpenRAGClient.rankAndDiversifyResults`: score, sort descending by
adjusted score (JS `Array.prototype.sort` is stable; a stable insertion
sort produces the same list), diversify, and re-expose only the original
fields. -/
def rankAndDiversifyResults (results : List SearchResult) (query : Str) :
    List SearchResult :=
  let scored := results.enum.map fun p =>
    Scored.mk p.1 p.2 (calculateAdjustedScore p.2 query)
  let sorted := scored.insertionSort fun a b => b.adjustedScore ≤ a.adjustedScore
  let diversified := diversifyResults sorted
  diversified.map fun s =>
    { content := s.res.content, source := s.res.source,
      metadata := s.res.metadata, score := s.res.score }

/-- Content-length boost/penalty factor of `calculateAdjustedScore`. -/
def lengthFactor (r : SearchResult) : ℚ :=
  if 500 < r.content.length then 11 / 10
  else if r.content.length < 100 then 9 / 10
  else 1

/-- Code-term boost factor of `calculateAdjustedScore`. -/
def codeTermFactor (r : SearchResult) (query : Str) : ℚ :=
  if (codeTerms.any fun term =>
      jsIncludes (lowerStr query) term || jsIncludes (lowerStr r.content) term) &&
      r.source.stype = SType.github then 6 / 5
  else 1

/-- Question-word boost factor of `calculateAdjustedScore`. -/
def questionFactor (r : SearchResult) (query : Str) : ℚ :=
  if (questionWords.any fun w => jsIncludes (lowerStr query) w) &&
      r.source.stype = SType.documentation then 23 / 20
  else 1

/-- The exact-match factor as the source computes it: a query word counts
as matched when it occurs as a SUBSTRING of the lowercased content
(`contentLower.includes(word)`), not as a whole content token. -/
def substrMatchBoost (r : SearchResult) (query : Str) : ℚ :=
  let queryWords := splitWsRuns (lowerStr query)
  1 + (((queryWords.countP fun w => jsIncludes (lowerStr r.content) w) : ℚ) /
      (queryWords.length : ℚ)) * (1 / 10)

/-- Section-label boost factor of `calculateAdjustedScore`. -/
def sectionFactor (r : SearchResult) : ℚ :=
  if optTruthy r.metadata.sectionLabel then 21 / 20 else 1

/-- The concrete result used to separate the two readings of the
exact-match rule: content "concatenate" contains the query word "cat" as a
substring but not as a token. -/
def catResult : SearchResult :=
  ⟨"concatenate".toList, ⟨"u".toList, SType.documentation, none, none⟩,
    ⟨none, none, none⟩, 1 / 2⟩

/-- The raw line range a chunk covers (ends inclusive), as a slice of the
line array. -/
def sliceJ (L : List Str) (r : Nat × Nat) : List Str :=
  (L.drop r.1).take (r.2 + 1 - r.1)

/-- The emission rule of `addCodeChunk` expressed on a line range:
whitespace-only content is dropped, otherwise the chunk is the joined
slice. -/
def emitF (L : List Str) (r : Nat × Nat) : Option CodeChunk :=
  if (jsTrim (joinNl (sliceJ L r))).length = 0 then none
  else some ⟨joinNl (sliceJ L r), r.1, r.2⟩

/-- Loop invariant of the structural splitter after `m` lines: the pending
chunk is exactly the slice from `chunkStart`, the logged ranges tile the
prefix before `chunkStart`, and the emitted chunks are the non-whitespace
attempts. -/
def CSInv (L : List Str) (m : Nat) (st : CSState) : Prop :=
  st.chunkStart ≤ m ∧
  st.currentChunk = (L.drop st.chunkStart).take (m - st.chunkStart) ∧
  ((st.ranges.map (sliceJ L)).flatten = L.take st.chunkStart) ∧
  st.chunks = st.ranges.filterMap (emitF L)

/-! Theorems.  Each claim of the specification is settled below; helper
lemmas precede the claim theorems that use them. -/

/-- C6: for every search result and query, the adjusted score computed by
the ranker — the raw score times the compounded boost/penalty factors — is
clamped to a maximum of 1.0 and never exceeds it, regardless of how the
multiplicative boosts compound. -/
theorem c6_score_ceiling (r : SearchResult) (q : Str) :
    calculateAdjustedScore r q ≤ 1 := by
  unfold calculateAdjustedScore
  exact min_le_right _ _

/-- C1 (amended): the fast path exists for the code and generic-text
strategies — any content within `maxChunkSize` yields exactly one chunk
equal to the whole input, before any strategy-specific splitting — but the
markdown/readme and heading-guided strategies have no such fast path (see
the counterexample). -/
theorem c1_fast_path_code_and_text (cfg : Config) (lang content : Str)
    (fuel : Nat) (h : content.length ≤ cfg.maxChunkSize) :
    chunkCodeContent cfg lang content = [content] ∧
    chunkTextContent cfg content fuel = some [content] := by
  refine ⟨?_, ?_⟩ <;> simp [chunkCodeContent, chunkTextContent, h]

/-- C1 witness: a concrete small code file takes the fast path under both
the code and text strategies. -/
theorem c1_fast_path_witness :
    chunkCodeContent ⟨8192, 200⟩ "typescript".toList "const x = 1".toList =
        ["const x = 1".toList] ∧
    chunkTextContent ⟨8192, 200⟩ "const x = 1".toList 0 =
        some ["const x = 1".toList] :=
  c1_fast_path_code_and_text ⟨8192, 200⟩ "typescript".toList
    "const x = 1".toList 0 (by decide)

/-- C1 counterexample: a markdown input far below `maxChunkSize` is split
into two chunks by the readme/markdown strategy — the claimed
single-chunk fast path does not exist there. -/
theorem c1_counterexample_markdown :
    "# A\nhello\n# B\nworld".toList.length ≤ 8192 ∧
    (chunkMarkdownContent ⟨8192, 200⟩ "# A\nhello\n# B\nworld".toList).length
      = 2 := by decide

/-- C2 (amended): empty or whitespace-only content is not filtered by
segmentation: within `maxChunkSize` (always the case for the empty input)
the fast path returns exactly one chunk whose content is the input
verbatim, not an empty chunk sequence. -/
theorem c2_whitespace_one_chunk (cfg : Config) (lang content : Str)
    (fuel : Nat) (hw : jsTrim content = [])
    (h : content.length ≤ cfg.maxChunkSize) :
    chunkCodeContent cfg lang content = [content] ∧
    chunkTextContent cfg content fuel = some [content] := by
  refine ⟨?_, ?_⟩ <;> simp [chunkCodeContent, chunkTextContent, h]

/-- C2 witness: three spaces of content come back as one whitespace chunk. -/
theorem c2_whitespace_witness :
    chunkCodeContent ⟨8192, 200⟩ "typescript".toList "   ".toList =
        ["   ".toList] ∧
    chunkTextContent ⟨8192, 200⟩ "   ".toList 0 = some ["   ".toList] :=
  c2_whitespace_one_chunk ⟨8192, 200⟩ "typescript".toList "   ".toList 0
    (by decide) (by decide)

/-- C2 counterexample: the empty input yields one chunk (the empty chunk),
not the claimed empty chunk sequence, under both the code and text
strategies. -/
theorem c2_counterexample_empty :
    chunkCodeContent ⟨8192, 200⟩ "typescript".toList [] = [[]] ∧
    chunkTextContent ⟨8192, 200⟩ [] 0 = some [[]] := by decide

/-! Size-bound lemmas for the paragraph splitter (claim C5). -/

/-- A successful sentence-boundary scan returns a point at most one past its
probe index and strictly inside the tail-20% window. -/
lemma sentenceSearch_some (text : Str) (start maxEnd : Int) :
    ∀ (fuel : Nat) (i bp : Int),
      sentenceSearch text start maxEnd fuel i = some bp →
      bp ≤ i + 1 ∧ 5 * start + 4 * maxEnd < 5 * (bp - 1) := by
  intro fuel
  induction fuel with
  | zero => intro i bp h; simp [sentenceSearch] at h
  | succ n ih =>
    intro i bp h
    simp only [sentenceSearch] at h
    split at h
    · split at h
      · obtain rfl : i + 1 = bp := by exact Option.some.injEq _ _ |>.mp h
        constructor
        · omega
        · simpa using ‹5 * i > 5 * start + 4 * maxEnd›
      · have := ih (i - 1) bp h
        constructor
        · omega
        · exact this.2
    · exact absurd h (by simp)

/-- A successful word-boundary scan returns a point at most its probe index
and strictly inside the tail-10% window. -/
lemma wordSearch_some (text : Str) (start maxEnd : Int) :
    ∀ (fuel : Nat) (i bp : Int),
      wordSearch text start maxEnd fuel i = some bp →
      bp ≤ i ∧ 10 * start + 9 * maxEnd < 10 * bp := by
  intro fuel
  induction fuel with
  | zero => intro i bp h; simp [wordSearch] at h
  | succ n ih =>
    intro i bp h
    simp only [wordSearch] at h
    split at h
    · split at h
      · obtain rfl : i = bp := by exact Option.some.injEq _ _ |>.mp h
        constructor
        · omega
        · simpa using ‹10 * i > 10 * start + 9 * maxEnd›
      · have := ih (i - 1) bp h
        constructor
        · omega
        · exact this.2
    · exact absurd h (by simp)

/-- The break point never exceeds the hard window end. -/
lemma ftbp_le (text : Str) (start maxEnd : Int) :
    findTextBreakPoint text start maxEnd ≤ maxEnd := by
  unfold findTextBreakPoint
  split
  · next bp hs => have := sentenceSearch_some text start maxEnd _ _ _ hs; omega
  · split
    · next i hw => have := wordSearch_some text start maxEnd _ _ _ hw; omega
    · omega

/-- For a non-degenerate window the break point does not move before the
window start. -/
lemma ftbp_ge (text : Str) (start maxEnd : Int) (h0 : 0 ≤ start)
    (h1 : start ≤ maxEnd) : start ≤ findTextBreakPoint text start maxEnd := by
  unfold findTextBreakPoint
  split
  · next bp hs => have := sentenceSearch_some text start maxEnd _ _ _ hs; omega
  · split
    · next i hw => have := wordSearch_some text start maxEnd _ _ _ hw; omega
    · omega

/-- Length of a JS `substring` span in terms of the clamped indices. -/
lemma jsSubstring_len (s : Str) (a b : Int) :
    (jsSubstring s a b).length =
      min (max (clampIdx s.length a) (clampIdx s.length b) -
        min (clampIdx s.length a) (clampIdx s.length b))
        (s.length - min (clampIdx s.length a) (clampIdx s.length b)) := by
  simp [jsSubstring]

/-- Every chunk produced by `splitLongText` has length at most the size
window `maxSize`. -/
lemma splitLongText_chunk_le (ov : Nat) (text : Str) (maxSize : Nat) :
    ∀ (fuel : Nat) (start : Int) (cs : List Str),
      splitLongText ov text maxSize fuel start = some cs →
      ∀ c ∈ cs, c.length ≤ maxSize := by
  intro fuel
  induction fuel with
  | zero => intro start cs h; simp [splitLongText] at h
  | succ n ih =>
    intro start cs h
    simp only [splitLongText] at h
    split at h
    · next hlt =>
      split at h
      · next hend =>
        obtain rfl : [jsSubstringFrom text start] = cs :=
          Option.some.injEq _ _ |>.mp h
        intro c hc
        simp only [List.mem_singleton] at hc
        subst hc
        simp only [jsSubstringFrom, List.length_drop, clampIdx]
        omega
      · next hend =>
        set bp := findTextBreakPoint text start (start + maxSize) with hbp
        have hle : bp ≤ start + maxSize := ftbp_le text start (start + maxSize)
        split at h
        · exact absurd h (by simp)
        · next rest hrest =>
          obtain rfl : jsSubstring text start bp :: rest = cs :=
            Option.some.injEq _ _ |>.mp h
          intro c hc
          rcases List.mem_cons.mp hc with rfl | hmem
          · rw [jsSubstring_len]
            rcases le_or_lt 0 start with hpos | hneg
            · have hge : start ≤ bp := ftbp_ge text start (start + maxSize) hpos (by omega)
              simp only [clampIdx]
              omega
            · simp only [clampIdx]
              omega
          · exact ih (bp - ov) rest hrest c hmem
    · obtain rfl : ([] : List Str) = cs := Option.some.injEq _ _ |>.mp h
      intro c hc
      simp at hc

/-- Invariant of the paragraph-accumulation loop: if the accumulated
current chunk and every already-emitted chunk respect the
`maxChunkSize + chunkOverlap` bound, so does every chunk in the final
output. -/
lemma textLoop_bound (cfg : Config) (hov : 1 ≤ cfg.chunkOverlap) :
    ∀ (ps : List Str) (fuel : Nat) (chunks : List Str) (cur : Str)
      (cs : List Str),
      (∀ c ∈ chunks, c.length ≤ cfg.maxChunkSize + cfg.chunkOverlap) →
      cur.length ≤ cfg.maxChunkSize + cfg.chunkOverlap →
      textLoop cfg fuel ps chunks cur = some cs →
      ∀ c ∈ cs, c.length ≤ cfg.maxChunkSize + cfg.chunkOverlap := by
  intro ps
  induction ps with
  | nil =>
    intro fuel chunks cur cs hchunks hcur h c hc
    simp only [textLoop] at h
    obtain rfl := Option.some.injEq _ _ |>.mp h
    split at hc
    · rcases List.mem_append.mp hc with hm | hm
      · exact hchunks c hm
      · simp only [List.mem_singleton] at hm; subst hm; exact hcur
    · exact hchunks c hc
  | cons p ps ih =>
    intro fuel chunks cur cs hchunks hcur h c hc
    simp only [textLoop] at h
    split at h
    · next hacc =>
      refine ih fuel chunks _ cs hchunks ?_ h c hc
      simp only [List.length_append]
      split <;> simp <;> omega
    · next hacc =>
      have hchunks1 : ∀ x ∈ (if 0 < cur.length then chunks ++ [cur] else chunks),
          x.length ≤ cfg.maxChunkSize + cfg.chunkOverlap := by
        intro x hx
        split at hx
        · rcases List.mem_append.mp hx with hm | hm
          · exact hchunks x hm
          · simp only [List.mem_singleton] at hm; subst hm; exact hcur
        · exact hchunks x hx
      split at h
      · next hbig =>
        split at h
        · exact absurd h (by simp)
        · next subs hsubs =>
          refine ih fuel _ [] cs ?_ (by simp) h c hc
          intro x hx
          rcases List.mem_append.mp hx with hm | hm
          · exact hchunks1 x hm
          · have := splitLongText_chunk_le cfg.chunkOverlap p cfg.maxChunkSize
              fuel 0 subs hsubs x hm
            omega
      · next hbig =>
        refine ih fuel _ p cs hchunks1 (by omega) h c hc

/-- C5 (amended): the paragraph splitter respects the size bound — every
chunk it emits (when the sub-splitting loop terminates within its fuel) has
length at most `maxChunkSize + chunkOverlap`, the constructor guaranteeing
`chunkOverlap ≥ 1`.  The line-fallback splitter does NOT respect the bound
(see the counterexample): a single line longer than the budget is emitted
whole. -/
theorem c5_paragraph_size_bound (cfg : Config) (content : Str) (fuel : Nat)
    (cs : List Str) (hov : 1 ≤ cfg.chunkOverlap)
    (h : chunkTextContent cfg content fuel = some cs) :
    ∀ c ∈ cs, c.length ≤ cfg.maxChunkSize + cfg.chunkOverlap := by
  unfold chunkTextContent at h
  split at h
  · next hsmall =>
    obtain rfl := Option.some.injEq _ _ |>.mp h
    intro c hc
    simp only [List.mem_singleton] at hc
    subst hc
    omega
  · exact textLoop_bound cfg hov (splitParagraphs content) fuel [] [] cs
      (by simp) (by simp) h

/-- C5 witness: a concrete over-long text is split and its first chunk is
within `maxChunkSize + chunkOverlap`. -/
theorem c5_paragraph_size_witness :
    ("aaa bbb.".toList : Str).length ≤ 10 + 2 :=
  c5_paragraph_size_bound ⟨10, 2⟩
    "aaa bbb.\n\nccc ddd.\n\neee fff ggg hhh iii.".toList 100
    ["aaa bbb.".toList, "ccc ddd.".toList, "eee fff gg".toList,
      "ggg hhh ii".toList, "iii.".toList]
    (by decide) (by decide) "aaa bbb.".toList (by decide)

/-- C5 counterexample: the line-fallback splitter violates the
`maxChunkSize + chunkOverlap` bound — with `maxChunkSize = 5` and
`chunkOverlap = 1`, a single 12-character line is emitted as one
12-character chunk. -/
theorem c5_counterexample_long_line :
    chunkByLines ⟨5, 1⟩ ["aaaaaaaaaaaa".toList] = ["aaaaaaaaaaaa".toList] ∧
    5 + 1 < ("aaaaaaaaaaaa".toList : Str).length := by decide

/-! The 50-character floor of the heading-guided splitter (claim C9). -/

/-- Invariant of the `chunkByHeadings` loop: every chunk it ever emits is
either longer than 50 characters after trimming (boundary and final-flush
chunks, which are guarded) or longer than `maxChunkSize` (force-split
chunks, which are not). -/
lemma hdLoop_floor (cfg : Config) (headings : List Str) :
    ∀ (lines chunks : List Str) (cur : List Str) (heading : Str),
      (∀ c ∈ chunks, 50 < (jsTrim c).length ∨ cfg.maxChunkSize < c.length) →
      ∀ c ∈ hdLoop cfg headings lines chunks cur heading,
        50 < (jsTrim c).length ∨ cfg.maxChunkSize < c.length := by
  intro lines
  induction lines with
  | nil =>
    intro chunks cur heading hinv c hc
    simp only [hdLoop] at hc
    split at hc
    · split at hc
      · next hbig =>
        rcases List.mem_append.mp hc with hm | hm
        · exact hinv c hm
        · simp only [List.mem_singleton] at hm; subst hm; exact Or.inl hbig
      · exact hinv c hc
    · exact hinv c hc
  | cons line rest ih =>
    intro chunks cur heading hinv c hc
    simp only [hdLoop] at hc
    split at hc
    · next h hmatch =>
      split at hc
      · refine ih _ _ _ ?_ c hc
        intro x hx
        split at hx
        · next hbig =>
          rcases List.mem_append.mp hx with hm | hm
          · exact hinv x hm
          · simp only [List.mem_singleton] at hm; subst hm; exact Or.inl hbig
        · exact hinv x hx
      · split at hc
        · next hover =>
          refine ih _ _ _ ?_ c hc
          intro x hx
          rcases List.mem_append.mp hx with hm | hm
          · exact hinv x hm
          · simp only [List.mem_singleton] at hm; subst hm; exact Or.inr hover
        · exact ih _ _ _ hinv c hc
    · split at hc
      · next hover =>
        refine ih _ _ _ ?_ c hc
        intro x hx
        rcases List.mem_append.mp hx with hm | hm
        · exact hinv x hm
        · simp only [List.mem_singleton] at hm; subst hm; exact Or.inr hover
      · exact ih _ _ _ hinv c hc

/-- C9 (amended): chunks emitted by the heading-guided page splitter at a
heading boundary or at the final flush have trimmed length strictly greater
than 50; force-split chunks (raw length above `maxChunkSize`) are emitted
without the 50-character floor, so every emitted chunk satisfies the
disjunction — but not, as claimed, the floor alone (see the
counterexample). -/
theorem c9_heading_floor (cfg : Config) (content : Str)
    (headings : List Str) (c : Str)
    (hc : c ∈ chunkByHeadings cfg content headings) :
    50 < (jsTrim c).length ∨ cfg.maxChunkSize < c.length := by
  unfold chunkByHeadings at hc
  split at hc
  · simp at hc
  · exact hdLoop_floor cfg headings _ [] [] [] (by simp) c hc

/-- C9 witness: the amended disjunction at a concrete force-split chunk. -/
theorem c9_heading_floor_witness :
    50 < (jsTrim "abcdef".toList).length ∨
      (⟨5, 1⟩ : Config).maxChunkSize < ("abcdef".toList : Str).length :=
  c9_heading_floor ⟨5, 1⟩ "abcdef".toList ["ZZZZ".toList] "abcdef".toList
    (by decide)

/-- C9 counterexample: with a non-empty candidate heading list, a
force-split section of trimmed length 6 ≤ 50 is emitted, violating the
claimed strict 50-character floor. -/
theorem c9_counterexample_force_split :
    chunkByHeadings ⟨5, 1⟩ "abcdef".toList ["ZZZZ".toList] =
        ["abcdef".toList] ∧
    ¬ 50 < (jsTrim "abcdef".toList).length := by decide

/-! The exact-match boost factor of the ranker (claim C7). -/

/-- C7 (amended): the ranker multiplies the raw score by
`1 + 0.1 × (matched query words / total query words)` — but a query word
counts as matched by SUBSTRING containment of the lowercased word in the
lowercased content, not by exact word-overlap with the content's tokens
(the factored form below makes the multiplier explicit; the counterexample
separates the two readings). -/
theorem c7_substring_match_factor (r : SearchResult) (q : Str) :
    calculateAdjustedScore r q =
      min (r.score * lengthFactor r * codeTermFactor r q * questionFactor r q *
        substrMatchBoost r q * sectionFactor r) 1 := by
  unfold calculateAdjustedScore lengthFactor codeTermFactor questionFactor
    substrMatchBoost sectionFactor
  dsimp only
  split_ifs <;> (congr 1 <;> ring)

/-- C7 counterexample: on query "cat" against content "concatenate" the
source boosts by the full ratio (adjusted score
`1/2 × 0.9 × 1.1 = 99/200`), while the claimed token-overlap rule yields no
boost (`1/2 × 0.9 = 9/20`): the claim's matching rule is not the one the
code implements. -/
theorem c7_counterexample_substring :
    calculateAdjustedScore catResult "cat".toList = 99 / 200 ∧
    calculateAdjustedScoreSpecOverlap catResult "cat".toList = 9 / 20 ∧
    (99 / 200 : ℚ) ≠ 9 / 20 := by
  refine ⟨?_, ?_, by norm_num⟩
  · simp only [calculateAdjustedScore, catResult]
    rw [if_neg (show ¬ (optTruthy none = true) by decide),
      if_neg (show ¬ (((questionWords.any fun w =>
        jsIncludes (lowerStr "cat".toList) w) && decide True) = true) by decide),
      if_neg (show ¬ (((codeTerms.any fun term =>
        jsIncludes (lowerStr "cat".toList) term ||
          jsIncludes (lowerStr "concatenate".toList) term) &&
        decide (SType.documentation = SType.github)) = true) by decide),
      if_neg (show ¬ (500 < ("concatenate".toList : Str).length) by decide),
      if_pos (show ("concatenate".toList : Str).length < 100 by decide),
      show (List.countP (fun w => jsIncludes (lowerStr "concatenate".toList) w)
        (splitWsRuns (lowerStr "cat".toList))) = 1 from by decide,
      show (splitWsRuns (lowerStr "cat".toList)).length = 1 from by decide]
    norm_num
  · simp only [calculateAdjustedScoreSpecOverlap, specTokenMatchBoost, catResult]
    rw [if_neg (show ¬ (optTruthy none = true) by decide),
      if_neg (show ¬ (((questionWords.any fun w =>
        jsIncludes (lowerStr "cat".toList) w) && decide True) = true) by decide),
      if_neg (show ¬ (((codeTerms.any fun term =>
        jsIncludes (lowerStr "cat".toList) term ||
          jsIncludes (lowerStr "concatenate".toList) term) &&
        decide (SType.documentation = SType.github)) = true) by decide),
      if_neg (show ¬ (500 < ("concatenate".toList : Str).length) by decide),
      if_pos (show ("concatenate".toList : Str).length < 100 by decide),
      show ((splitWsRuns (lowerStr "cat".toList)).countP fun w =>
        (splitWsRuns (lowerStr "concatenate".toList)).any (fun t => t == w)) = 0
        from by decide,
      show (splitWsRuns (lowerStr "cat".toList)).length = 1 from by decide]
    norm_num

/-! Diversification cap and backfill (claim C3). -/

/-- The first diversification pass never exceeds 3 accepted results per
source url, given the accumulator already respects the cap. -/
lemma divFirstPass_cap (url : Str) :
    ∀ (rs acc : List Scored),
      acc.countP (fun x => x.res.source.url == url) ≤ 3 →
      (divFirstPass acc rs).countP (fun x => x.res.source.url == url) ≤ 3 := by
  intro rs
  induction rs with
  | nil => intro acc h; simpa [divFirstPass] using h
  | cons r rest ih =>
    intro acc h
    simp only [divFirstPass]
    split
    · next hlt =>
      refine ih _ ?_
      rw [List.countP_append]
      by_cases hu : r.res.source.url = url
      · have hpq : List.countP (fun x : Scored => x.res.source.url == url) acc =
            List.countP (fun x : Scored => x.res.source.url == r.res.source.url) acc := by
          rw [hu]
        have hr : (fun x : Scored => x.res.source.url == url) r = true := by
          simp [hu]
        rw [hpq]
        simp only [List.countP_cons, List.countP_nil, hr, if_true]
        omega
      · have hr : (fun x : Scored => x.res.source.url == url) r = false := by
          simp only [beq_eq_false_iff_ne, ne_eq]
          exact hu
        simp only [List.countP_cons, List.countP_nil, hr, Bool.false_eq_true,
          if_false]
        omega
    · exact ih _ h

/-- The first diversification pass appends a sublist of its input (accepted
results keep their rank order). -/
lemma divFirstPass_sublist : ∀ (rs acc : List Scored),
    ∃ t, divFirstPass acc rs = acc ++ t ∧ t.Sublist rs := by
  intro rs
  induction rs with
  | nil => intro acc; exact ⟨[], by simp [divFirstPass], List.Sublist.refl _⟩
  | cons r rest ih =>
    intro acc
    simp only [divFirstPass]
    split
    · obtain ⟨t, ht, hs⟩ := ih (acc ++ [r])
      exact ⟨r :: t, by simpa using ht, List.Sublist.cons₂ _ hs⟩
    · obtain ⟨t, ht, hs⟩ := ih acc
      exact ⟨t, ht, List.Sublist.cons _ hs⟩

/-- Size of the excluded pool: removing an (identity-distinct) accepted
sublist from the candidate list leaves exactly the complement. -/
lemma filter_excluded_length :
    ∀ {t rs : List Scored}, t.Sublist rs → (rs.map Scored.idx).Nodup →
      (rs.filter fun r => !(t.any fun x => x.idx = r.idx)).length
        = rs.length - t.length := by
  intro t rs hsub
  induction hsub with
  | slnil => intro _; simp
  | @cons l₁ l₂ a hsub ih =>
    intro hnd
    have hnd2 : (l₂.map Scored.idx).Nodup := by
      simpa using (List.nodup_cons.mp (by simpa using hnd)).2
    have hna : a.idx ∉ l₂.map Scored.idx :=
      (List.nodup_cons.mp (by simpa using hnd)).1
    have hpa : (fun r : Scored => !(l₁.any fun x => x.idx = r.idx)) a = true := by
      simp only [Bool.not_eq_true']
      rw [List.any_eq_false]
      intro x hx
      have hxl2 : x ∈ l₂ := hsub.mem hx
      have hmem : x.idx ∈ l₂.map Scored.idx := List.mem_map_of_mem _ hxl2
      simp only [decide_eq_true_eq]
      intro hxa
      exact hna (hxa ▸ hmem)
    simp only [List.filter_cons, hpa, if_true]
    have hih := ih hnd2
    have hlen := hsub.length_le
    simp only [List.length_cons]
    omega
  | @cons₂ l₁ l₂ a hsub ih =>
    intro hnd
    have hnd2 : (l₂.map Scored.idx).Nodup := by
      simpa using (List.nodup_cons.mp (by simpa using hnd)).2
    have hna : a.idx ∉ l₂.map Scored.idx :=
      (List.nodup_cons.mp (by simpa using hnd)).1
    have hpa : (fun r : Scored => !((a :: l₁).any fun x => x.idx = r.idx)) a
        = false := by simp
    have hcong : l₂.filter (fun r => !((a :: l₁).any fun x => x.idx = r.idx))
        = l₂.filter (fun r => !(l₁.any fun x => x.idx = r.idx)) := by
      apply List.filter_congr
      intro x hx
      have hmem : x.idx ∈ l₂.map Scored.idx := List.mem_map_of_mem _ hx
      have hax : ¬ (a.idx = x.idx) := fun hax => hna (hax ▸ hmem)
      simp only [List.any_cons, Bool.not_or]
      simp [hax]
    simp only [List.filter_cons, hpa, Bool.false_eq_true, if_false, hcong,
      ih hnd2, List.length_cons]
    omega

/-- Taking `min l.length k` elements is taking `k` elements. -/
lemma take_min_length {α : Type} (l : List α) (k : Nat) :
    l.take (min l.length k) = l.take k := by
  rcases le_total l.length k with h | h
  · rw [min_eq_left h, List.take_length, List.take_of_length_le h]
  · rw [min_eq_right h]

/-- C3: scanning in rank order, the diversification pass accepts at most 3
results per distinct source url; when the capped output is smaller than the
candidate set and below 10 results, the output is the capped list plus the
excluded pool, in rank order, truncated at the 10-result floor (so backfill
stops at the floor or when the pool is exhausted — the final length is
`min 10 rs.length`); otherwise the capped list is returned unchanged.
(`idx` distinctness models JS object identity, automatic for the arrays the
caller builds.) -/
theorem c3_diversify_cap_and_backfill (rs : List Scored) (url : Str)
    (hnd : (rs.map Scored.idx).Nodup) :
    (divFirstPass [] rs).countP (fun x => x.res.source.url == url) ≤ 3 ∧
    diversifyResults rs =
      (if (divFirstPass [] rs).length < rs.length ∧ (divFirstPass [] rs).length < 10 then
        divFirstPass [] rs ++
          (rs.filter fun r => !((divFirstPass [] rs).any fun x => x.idx = r.idx)).take
            (10 - (divFirstPass [] rs).length)
      else divFirstPass [] rs) ∧
    (diversifyResults rs).length =
      (if (divFirstPass [] rs).length < rs.length ∧ (divFirstPass [] rs).length < 10 then
        min 10 rs.length
      else (divFirstPass [] rs).length) := by
  obtain ⟨t, ht, hsub⟩ := divFirstPass_sublist rs []
  have htd : divFirstPass [] rs = t := by simpa using ht
  have hflen := filter_excluded_length hsub hnd
  refine ⟨divFirstPass_cap url rs [] (by simp), ?_, ?_⟩
  · unfold diversifyResults
    dsimp only
    split
    · next hcond => rw [take_min_length]
    · next hcond => rfl
  · unfold diversifyResults
    dsimp only
    split
    · next hcond =>
      rw [take_min_length]
      simp only [List.length_append, List.length_take]
      rw [htd] at hcond ⊢
      rw [hflen]
      have hle := hsub.length_le
      omega
    · next hcond => rfl

/-- C3 witness: on four rank-ordered results from one url, the first pass
accepts at most three. -/
theorem c3_diversify_witness :
    (divFirstPass []
      [⟨0, ⟨"c".toList, ⟨"u".toList, SType.github, none, none⟩,
          ⟨none, none, none⟩, 0⟩, 0⟩,
        ⟨1, ⟨"c".toList, ⟨"u".toList, SType.github, none, none⟩,
          ⟨none, none, none⟩, 0⟩, 0⟩,
        ⟨2, ⟨"c".toList, ⟨"u".toList, SType.github, none, none⟩,
          ⟨none, none, none⟩, 0⟩, 0⟩,
        ⟨3, ⟨"c".toList, ⟨"u".toList, SType.github, none, none⟩,
          ⟨none, none, none⟩, 0⟩, 0⟩]).countP
      (fun x => x.res.source.url == "u".toList) ≤ 3 :=
  (c3_diversify_cap_and_backfill _ "u".toList (by decide)).1

/-! Frame property of the ranker (claim C10). -/

/-- Diversification only selects elements of its input. -/
lemma diversify_mem {x : Scored} {l : List Scored}
    (h : x ∈ diversifyResults l) : x ∈ l := by
  obtain ⟨t, ht, hsub⟩ := divFirstPass_sublist l []
  have htd : divFirstPass [] l = t := by simpa using ht
  unfold diversifyResults at h
  dsimp only at h
  split at h
  · rcases List.mem_append.mp h with hm | hm
    · exact hsub.mem (htd ▸ hm)
    · exact List.mem_of_mem_filter ((List.take_sublist _ _).mem hm)
  · exact hsub.mem (htd ▸ h)

/-- C10: every result returned by the ranker is one of the input results,
with content, source, metadata and the exposed `score` field unchanged (the
record equality covers all four fields: the internal adjusted score is
dropped by the final projection and never written into `score`). -/
theorem c10_ranker_frame (results : List SearchResult) (query : Str)
    (r : SearchResult) (h : r ∈ rankAndDiversifyResults results query) :
    r ∈ results := by
  unfold rankAndDiversifyResults at h
  dsimp only at h
  obtain ⟨s, hs, hsr⟩ := List.mem_map.mp h
  have hsr2 : s.res = r := by rw [← hsr]
  have hsorted := diversify_mem hs
  have hscored :
      s ∈ results.enum.map (fun p =>
        Scored.mk p.1 p.2 (calculateAdjustedScore p.2 query)) :=
    (List.perm_insertionSort _ _).mem_iff.mp hsorted
  obtain ⟨p, hp, hps⟩ := List.mem_map.mp hscored
  have hp2 : p.2 = s.res := by rw [← hps]
  rw [← hsr2, ← hp2]
  have hpe : (p.1, p.2) ∈ List.enumFrom 0 results := by
    rw [← List.enum_eq_enumFrom]
    exact hp
  obtain ⟨-, hlt, hx⟩ := List.mem_enumFrom hpe
  rw [hx]
  exact List.getElem_mem _

/-- C10 witness: a concrete ranked singleton comes back as exactly the
input record. -/
theorem c10_ranker_frame_witness :
    (⟨"c".toList, ⟨"u".toList, SType.github, none, none⟩,
      ⟨none, none, none⟩, 0⟩ : SearchResult) ∈
      [(⟨"c".toList, ⟨"u".toList, SType.github, none, none⟩,
        ⟨none, none, none⟩, 0⟩ : SearchResult)] :=
  c10_ranker_frame
    [⟨"c".toList, ⟨"u".toList, SType.github, none, none⟩,
      ⟨none, none, none⟩, 0⟩] "q".toList
    ⟨"c".toList, ⟨"u".toList, SType.github, none, none⟩,
      ⟨none, none, none⟩, 0⟩ (by decide)

/-! Overlap stepping and termination of `splitLongText` (claim C8). -/

/-- With `0 ≤ start`, any break point steps the next window start
(`breakPoint - chunkOverlap`) at least one past the current start and keeps
it non-negative, provided `5·chunkOverlap < 4·maxSize` (the real-arithmetic
boundary of the tail-20% sentence window). -/
lemma ftbp_progress (text : Str) (maxSize ov : Nat) (start : Int)
    (hms : 1 ≤ maxSize) (hov : 5 * ov < 4 * maxSize) (h0 : 0 ≤ start) :
    start + 1 ≤ findTextBreakPoint text start (start + maxSize) - ov ∧
    0 ≤ findTextBreakPoint text start (start + maxSize) - ov := by
  unfold findTextBreakPoint
  split
  · next bp hs =>
    have h1 := sentenceSearch_some text start (start + maxSize) _ _ _ hs
    omega
  · split
    · next i hw =>
      have h1 := wordSearch_some text start (start + maxSize) _ _ _ hw
      omega
    · omega

/-- One-step unfolding of the `splitLongText` loop. -/
lemma splitLongText_succ (ov : Nat) (text : Str) (maxSize fuel : Nat)
    (start : Int) :
    splitLongText ov text maxSize (fuel + 1) start =
      if start < (text.length : Int) then
        if (text.length : Int) ≤ start + maxSize then
          some [jsSubstringFrom text start]
        else
          match splitLongText ov text maxSize fuel
              (findTextBreakPoint text start (start + maxSize) - ov) with
          | none => none
          | some rest =>
            some (jsSubstring text start
              (findTextBreakPoint text start (start + maxSize)) :: rest)
      else some [] := rfl

/-- Under the bounded-overlap hypothesis the loop reaches the end of the
text: fuel `k + 1` suffices whenever the remaining span is at most `k`. -/
lemma splitLongText_total (text : Str) (maxSize ov : Nat)
    (hms : 1 ≤ maxSize) (hov : 5 * ov < 4 * maxSize) :
    ∀ (k : Nat) (start : Int), 0 ≤ start → (text.length : Int) ≤ start + k →
      (splitLongText ov text maxSize (k + 1) start).isSome := by
  intro k
  induction k with
  | zero =>
    intro start h0 hk
    rw [splitLongText_succ]
    rw [if_neg (by omega)]
    simp
  | succ n ih =>
    intro start h0 hk
    rw [splitLongText_succ]
    split
    · next hlt =>
      split
      · simp
      · next hend =>
        have hprog := ftbp_progress text maxSize ov start hms hov h0
        have hih := ih (findTextBreakPoint text start (start + maxSize) - ov)
          (by omega) (by omega)
        obtain ⟨res, hres⟩ := Option.isSome_iff_exists.mp hih
        rw [hres]
        simp
    · simp

/-- The sentence scan never fires on negative probe indices (JS reads
`undefined` there). -/
lemma sentenceSearch_neg (text : Str) (start maxEnd : Int) :
    ∀ (fuel : Nat) (i : Int), i < 0 →
      sentenceSearch text start maxEnd fuel i = none := by
  intro fuel
  induction fuel with
  | zero => intro i h; rfl
  | succ n ih =>
    intro i h
    simp only [sentenceSearch]
    split
    · have hca : charAt text i = none := by
        unfold charAt
        rw [if_neg (by omega)]
      rw [hca]
      simp only [Bool.false_eq_true, reduceCtorEq, false_or, if_false,
        Bool.false_and, decide_False]
      exact ih (i - 1) (by omega)
    · rfl

/-- The word scan never fires on negative probe indices. -/
lemma wordSearch_neg (text : Str) (start maxEnd : Int) :
    ∀ (fuel : Nat) (i : Int), i < 0 →
      wordSearch text start maxEnd fuel i = none := by
  intro fuel
  induction fuel with
  | zero => intro i h; rfl
  | succ n ih =>
    intro i h
    simp only [wordSearch]
    split
    · have hca : charAt text i = none := by
        unfold charAt
        rw [if_neg (by omega)]
      rw [hca]
      simp only [reduceCtorEq, false_or, or_self, if_false]
      exact ih (i - 1) (by omega)
    · rfl

/-- When the whole window sits before the text, the break point degenerates
to the window end. -/
lemma ftbp_neg (text : Str) (start maxEnd : Int) (h : maxEnd - 1 < 0) :
    findTextBreakPoint text start maxEnd = maxEnd := by
  unfold findTextBreakPoint
  rw [sentenceSearch_neg text start maxEnd _ _ (by omega),
    wordSearch_neg text start maxEnd _ _ (by omega)]

/-- Once the window start of `splitLongText` falls to `-190` or below on a
30-character text with `maxSize = 10` and `chunkOverlap = 200`, it
decreases forever: no amount of fuel produces a result (the source loop
never terminates). -/
lemma splitLongText_diverges :
    ∀ (fuel : Nat) (start : Int), start ≤ -190 →
      splitLongText 200 (List.replicate 30 'a') 10 fuel start = none := by
  intro fuel
  induction fuel with
  | zero => intro start h; rfl
  | succ n ih =>
    intro start h
    have hlen : (List.replicate 30 'a').length = 30 := by simp
    rw [splitLongText_succ, if_pos (by rw [hlen]; push_cast; omega),
      if_neg (by rw [hlen]; push_cast; omega),
      ftbp_neg _ _ _ (by push_cast; omega),
      ih (start + (10 : Nat) - (200 : Nat)) (by push_cast; omega)]

/-- C8 (amended): each cut of the oversized-paragraph splitter reserves
`chunkOverlap` characters by stepping the next window start backward from
the cut point, and — provided `5·chunkOverlap < 4·maxChunkSize`, which the
defaults (200 vs 8192) satisfy — every next window start stays
non-negative, advances by at least one character, and the split terminates
within `text.length` iterations.  The code contains NO clamp to 0: outside
that regime the start goes negative and the loop need not terminate (see
the counterexample and `splitLongText_diverges`). -/
theorem c8_overlap_progress_termination (text : Str) (maxSize ov : Nat)
    (start : Int) (hms : 1 ≤ maxSize) (hov : 5 * ov < 4 * maxSize)
    (h0 : 0 ≤ start) :
    (start + 1 ≤ findTextBreakPoint text start (start + maxSize) - ov ∧
      0 ≤ findTextBreakPoint text start (start + maxSize) - ov) ∧
    (splitLongText ov text maxSize (text.length + 1) 0).isSome :=
  ⟨ftbp_progress text maxSize ov start hms hov h0,
    splitLongText_total text maxSize ov hms hov text.length 0 (by omega)
      (by omega)⟩

/-- C8 witness: with `maxSize = 10`, `chunkOverlap = 2` the cut at window
start 0 steps forward and the split of an 18-character text terminates. -/
theorem c8_overlap_witness :
    ((0 : Int) + 1 ≤
        findTextBreakPoint "hello there world!".toList 0 (0 + (10 : Nat)) - (2 : Nat) ∧
      (0 : Int) ≤
        findTextBreakPoint "hello there world!".toList 0 (0 + (10 : Nat)) - (2 : Nat)) ∧
    (splitLongText 2 "hello there world!".toList 10
      ("hello there world!".toList.length + 1) 0).isSome :=
  c8_overlap_progress_termination "hello there world!".toList 10 2 0
    (by decide) (by decide) (by decide)

/-- C8 counterexample: with `maxSize = 10` and the default
`chunkOverlap = 200` on a 30-character text, the very first cut puts the
next window start at `10 - 200 = -190 < 0` — there is no clamp to 0 — and
the split then returns nothing even with ample fuel (by
`splitLongText_diverges` it returns nothing for EVERY fuel: the source
loop never terminates). -/
theorem c8_counterexample_negative_start :
    findTextBreakPoint (List.replicate 30 'a') 0 10 - 200 = -190 ∧
    (-190 : Int) < 0 ∧
    splitLongText 200 (List.replicate 30 'a') 10 30 0 = none := by
  refine ⟨by decide, by decide, ?_⟩
  rw [show (30 : Nat) = 29 + 1 from rfl, splitLongText_succ,
    if_pos (by decide), if_neg (by decide),
    show findTextBreakPoint (List.replicate 30 'a') 0 (0 + (10 : Nat)) = 10
      from by decide,
    splitLongText_diverges 29 (10 - (200 : Nat)) (by decide)]

/-! No-loss line coverage of the code splitters (claim C4). -/

/-- Extending a slice by the next line. -/
lemma slice_push (L : List Str) (s i : Nat) (hsi : s ≤ i) (hin : i < L.length) :
    (L.drop s).take (i - s) ++ [L[i]] = (L.drop s).take (i + 1 - s) := by
  have h1 : i + 1 - s = (i - s) + 1 := by omega
  rw [h1, List.take_succ]
  have h2 : (L.drop s)[i - s]? = some L[i] := by
    rw [List.getElem?_drop]
    have h3 : s + (i - s) = i := by omega
    rw [h3, List.getElem?_eq_getElem hin]
  rw [h2]
  rfl

/-- An empty slice within bounds pins its endpoints together. -/
lemma slice_empty (L : List Str) (s i : Nat) (hsi : s ≤ i) (hin : i ≤ L.length)
    (h : (L.drop s).take (i - s) = []) : s = i := by
  by_contra hne
  have hl : ((L.drop s).take (i - s)).length = min (i - s) (L.length - s) := by
    simp [List.length_take, List.length_drop]
  rw [h] at hl
  simp only [List.length_nil] at hl
  omega

/-- A prefix followed by the adjacent slice is the longer prefix. -/
lemma take_glue (L : List Str) (s m : Nat) (h : s ≤ m) :
    L.take s ++ (L.drop s).take (m - s) = L.take m := by
  rw [show m = s + (m - s) from by omega, List.take_add]
  congr 2
  omega

/-- The natural break point never exceeds the last line index. -/
lemma findNaturalBreakPoint_le (lines : List Str) :
    findNaturalBreakPoint lines ≤ lines.length - 1 := by
  unfold findNaturalBreakPoint
  dsimp only
  split
  · next i hfind =>
    have hmem := List.mem_of_find?_eq_some hfind
    simp only [List.mem_map, List.mem_range] at hmem
    obtain ⟨d, hd, hdi⟩ := hmem
    omega
  · omega

/-- Loop invariant of the line-fallback splitter: the pending lines are the
slice from `pos`, chunks are the joined slices of the logged ranges, every
line before `pos` is covered by some logged range, and ranges are
well-formed. -/
lemma lbLoop_inv (cfg : Config) (L : List Str) :
    ∀ (rest : List Str) (k : Nat) (st : LBState),
      k ≤ L.length → L.drop k = rest →
      st.pos ≤ k →
      st.currentLines = (L.drop st.pos).take (k - st.pos) →
      st.chunks = st.ranges.map (fun r => joinNl (sliceJ L r)) →
      (∀ j, j < st.pos → ∃ r ∈ st.ranges, r.1 ≤ j ∧ j ≤ r.2) →
      (∀ r ∈ st.ranges, r.1 ≤ r.2 ∧ r.2 < k) →
      (lbLoop cfg rest st).pos ≤ L.length ∧
      (lbLoop cfg rest st).currentLines =
        (L.drop (lbLoop cfg rest st).pos).take
          (L.length - (lbLoop cfg rest st).pos) ∧
      (lbLoop cfg rest st).chunks =
        (lbLoop cfg rest st).ranges.map (fun r => joinNl (sliceJ L r)) ∧
      (∀ j, j < (lbLoop cfg rest st).pos →
        ∃ r ∈ (lbLoop cfg rest st).ranges, r.1 ≤ j ∧ j ≤ r.2) ∧
      (∀ r ∈ (lbLoop cfg rest st).ranges, r.1 ≤ r.2 ∧ r.2 < L.length) := by
  intro rest
  induction rest with
  | nil =>
    intro k st hk hdrop hpos hcur hchunks hcov hbnd
    have hkl : k = L.length := by
      have := congrArg List.length hdrop
      simp [List.length_drop] at this
      omega
    subst hkl
    exact ⟨hpos, hcur, hchunks, hcov, fun r hr => ⟨(hbnd r hr).1, (hbnd r hr).2⟩⟩
  | cons line rest ih =>
    intro k st hk hdrop hpos hcur hchunks hcov hbnd
    have hkn : k < L.length := by
      by_contra hge
      have hnil : L.drop k = [] := List.drop_eq_nil_of_le (by omega)
      rw [hnil] at hdrop
      exact absurd hdrop.symm (List.cons_ne_nil _ _)
    have hline : L[k] = line := by
      have h0 : (L.drop k)[0]? = some line := by rw [hdrop]; simp
      rw [List.getElem?_drop] at h0
      have h1 : L[k + 0]? = some line := h0
      simpa [List.getElem?_eq_getElem hkn] using h1
    have hrest : L.drop (k + 1) = rest := by
      have h2 : L.drop (k + 1) = (L.drop k).drop 1 := by
        rw [← List.drop_drop]
      rw [h2, hdrop]
      rfl
    simp only [lbLoop]
    unfold lbStep
    dsimp only
    split
    · next hbig =>
      have hcurlen : st.currentLines.length = k - st.pos := by
        rw [hcur]
        simp [List.length_take, List.length_drop]
        omega
      set cur := st.currentLines ++ [line] with hcurdef
      have hcurL : cur = (L.drop st.pos).take (k + 1 - st.pos) := by
        rw [hcurdef, hcur, ← hline, slice_push L st.pos k hpos hkn]
      set bp := findNaturalBreakPoint cur with hbpdef
      have hbple : bp ≤ k - st.pos := by
        have hfl := findNaturalBreakPoint_le cur
        have hcl : cur.length = k + 1 - st.pos := by
          simp [hcurdef, hcurlen]
          omega
        omega
      refine ih (k + 1) _ (by omega) hrest (by simp; omega) ?_ ?_ ?_ ?_
      · show cur.drop (bp + 1 - cfg.chunkOverlap / 20) =
          (L.drop (st.pos + (bp + 1 - cfg.chunkOverlap / 20))).take
            (k + 1 - (st.pos + (bp + 1 - cfg.chunkOverlap / 20)))
        rw [hcurL, List.drop_take, List.drop_drop]
        congr 1
        omega
      · show st.chunks ++ [joinNl (cur.take (bp + 1))] =
          (st.ranges ++ [(st.pos, st.pos + bp)]).map
            (fun r => joinNl (sliceJ L r))
        rw [List.map_append, hchunks]
        congr 1
        simp only [List.map_cons, List.map_nil]
        congr 2
        rw [hcurL, List.take_take]
        unfold sliceJ
        congr 1
        omega
      · intro j hj
        simp only at hj
        by_cases hjp : j < st.pos
        · obtain ⟨r, hr, h1, h2⟩ := hcov j hjp
          exact ⟨r, List.mem_append_left _ hr, h1, h2⟩
        · refine ⟨(st.pos, st.pos + bp), List.mem_append_right _ (by simp),
            by omega, by omega⟩
      · intro r hr
        rcases List.mem_append.mp hr with hm | hm
        · have := hbnd r hm
          omega
        · simp only [List.mem_singleton] at hm
          subst hm
          simp
          omega
    · next hsmall =>
      refine ih (k + 1) _ (by omega) hrest (by simp; omega) ?_ hchunks hcov ?_
      · show st.currentLines ++ [line] = (L.drop st.pos).take (k + 1 - st.pos)
        rw [hcur, ← hline, slice_push L st.pos k hpos hkn]
      · intro r hr
        have := hbnd r hr
        omega

/-- Line-fallback no-loss: chunks are the joined slices of their logged
ranges, every input line is covered by some range (overlap allowed,
omission impossible), and ranges are well-formed. -/
lemma chunkByLines_no_loss (cfg : Config) (lines : List Str) :
    (chunkByLinesFull cfg lines).chunks =
      (chunkByLinesFull cfg lines).ranges.map (fun r => joinNl (sliceJ lines r)) ∧
    (∀ j, j < lines.length →
      ∃ r ∈ (chunkByLinesFull cfg lines).ranges, r.1 ≤ j ∧ j ≤ r.2) ∧
    (∀ r ∈ (chunkByLinesFull cfg lines).ranges,
      r.1 ≤ r.2 ∧ r.2 < lines.length) := by
  obtain ⟨hpos, hcur, hchunks, hcov, hbnd⟩ :=
    lbLoop_inv cfg lines lines 0 ⟨[], [], [], 0⟩ (by omega) (by simp)
      (by simp) (by simp) (by simp) (by simp) (by simp)
  unfold chunkByLinesFull
  dsimp only
  split
  · next hne =>
    have hplen : (lbLoop cfg lines ⟨[], [], [], 0⟩).pos < lines.length := by
      by_contra hge
      have hemp : (lbLoop cfg lines ⟨[], [], [], 0⟩).currentLines = [] := by
        rw [hcur, show lines.length - (lbLoop cfg lines ⟨[], [], [], 0⟩).pos = 0
          from by omega]
        simp
      rw [hemp] at hne
      simp at hne
    refine ⟨?_, ?_, ?_⟩
    · show (lbLoop cfg lines ⟨[], [], [], 0⟩).chunks ++
          [joinNl (lbLoop cfg lines ⟨[], [], [], 0⟩).currentLines] = _
      rw [List.map_append, hchunks]
      congr 1
      simp only [List.map_cons, List.map_nil]
      congr 2
      rw [hcur]
      unfold sliceJ
      congr 1
      omega
    · intro j hj
      by_cases hjp : j < (lbLoop cfg lines ⟨[], [], [], 0⟩).pos
      · obtain ⟨r, hr, h1, h2⟩ := hcov j hjp
        exact ⟨r, List.mem_append_left _ hr, h1, h2⟩
      · exact ⟨((lbLoop cfg lines ⟨[], [], [], 0⟩).pos, lines.length - 1),
          List.mem_append_right _ (by simp), by omega, by omega⟩
    · intro r hr
      rcases List.mem_append.mp hr with hm | hm
      · exact hbnd r hm
      · simp only [List.mem_singleton] at hm
        subst hm
        constructor <;> simp <;> omega
  · next hem =>
    have hpe : (lbLoop cfg lines ⟨[], [], [], 0⟩).pos = lines.length := by
      have hemp : (lbLoop cfg lines ⟨[], [], [], 0⟩).currentLines = [] := by
        by_contra hne2
        have hlp : 0 < (lbLoop cfg lines ⟨[], [], [], 0⟩).currentLines.length := by
          cases hcl : (lbLoop cfg lines ⟨[], [], [], 0⟩).currentLines with
          | nil => exact absurd hcl hne2
          | cons a t => simp [hcl]
        exact hem hlp
      rw [hemp] at hcur
      exact (slice_empty lines _ _ hpos (le_refl _) hcur.symm)
    exact ⟨hchunks, fun j hj => hcov j (by omega), hbnd⟩

/-- Lemma: `addCodeChunk` extends a `filterMap`-described chunk list by one more
attempted range. -/
lemma addCodeChunk_filterMap (L : List Str) (chunks : List CodeChunk)
    (rs : List (Nat × Nat)) (ls : List Str) (s e : Nat)
    (hls : ls = sliceJ L (s, e)) (hch : chunks = rs.filterMap (emitF L)) :
    addCodeChunk chunks ls s e = (rs ++ [(s, e)]).filterMap (emitF L) := by
  rw [List.filterMap_append, ← hch]
  unfold addCodeChunk
  dsimp only
  rw [hls]
  by_cases hc : (jsTrim (joinNl (sliceJ L (s, e)))).length = 0
  · rw [if_pos hc]
    simp [List.filterMap_cons, emitF, hc]
  · rw [if_neg hc]
    simp [List.filterMap_cons, emitF, hc]

/-- Pushing the current line extends the pending slice. -/
lemma csPush_inv {L : List Str} {i : Nat} {st : CSState} (hin : i < L.length)
    (h : CSInv L i st) : CSInv L (i + 1) (csPush st L[i]) := by
  obtain ⟨hcs, hcur, hjoin, hchunks⟩ := h
  refine ⟨by simp [csPush]; omega, ?_, ?_, ?_⟩
  · show st.currentChunk ++ [L[i]] = _
    rw [hcur]
    exact slice_push L st.chunkStart i hcs hin
  · exact hjoin
  · exact hchunks

/-- A one-line slice. -/
lemma singleton_slice {L : List Str} {i : Nat} (hin : i < L.length) :
    [L[i]] = (L.drop i).take (i + 1 - i) := by
  have := slice_push L i i (le_refl i) hin
  simpa using this

/-- The structure-start branch preserves the invariant: the closed chunk
is the slice up to the previous line and the new chunk opens at this
line. -/
lemma csStructStart_inv {L : List Str} {lang : Str} {i : Nat} {st : CSState}
    (hin : i < L.length) (hcs : st.chunkStart ≤ i)
    (h : CSInv L (i + 1) st) :
    CSInv L (i + 1) (csStructStart lang st i L[i]) := by
  obtain ⟨_, hcur, hjoin, hchunks⟩ := h
  unfold csStructStart
  split
  · -- structure start
    have hlen : st.currentChunk.length = i + 1 - st.chunkStart := by
      rw [hcur]
      simp [List.length_take, List.length_drop]
      omega
    split
    · next hbig =>
      -- close previous chunk at (chunkStart, i - 1)
      have hlt : st.chunkStart < i := by omega
      have hdrop : st.currentChunk.dropLast =
          sliceJ L (st.chunkStart, i - 1) := by
        have hsp := slice_push L st.chunkStart i hcs hin
        unfold sliceJ
        rw [hcur, ← hsp,
          show i - 1 + 1 - st.chunkStart = i - st.chunkStart from by omega]
        simp only [List.dropLast_concat]
      refine ⟨by simp, ?_, ?_, ?_⟩
      · exact singleton_slice hin
      · show ((st.ranges ++ [(st.chunkStart, i - 1)]).map (sliceJ L)).flatten
          = L.take i
        rw [List.map_append, List.flatten_append, hjoin]
        simp only [List.map_cons, List.map_nil, List.flatten_cons,
          List.flatten_nil, List.append_nil]
        unfold sliceJ
        rw [show i - 1 + 1 - st.chunkStart = i - st.chunkStart from by omega]
        exact take_glue L st.chunkStart i (by omega)
      · exact addCodeChunk_filterMap L st.chunks st.ranges _ _ _ hdrop hchunks
    · next hsmall =>
      -- previous chunk empty: chunkStart already equals i
      have hi : st.chunkStart = i := by omega
      refine ⟨by simp, ?_, ?_, ?_⟩
      · exact singleton_slice hin
      · show ((st.ranges.map (sliceJ L)).flatten : List Str) = L.take i
        rw [hjoin, hi]
      · exact hchunks
  · exact ⟨by omega, hcur, hjoin, hchunks⟩

/-- Flushing the pending chunk as the range `(chunkStart, i)` preserves
the invariant, moving `chunkStart` past the flushed lines. -/
lemma csFlush_inv {L : List Str} {i : Nat} {st : CSState}
    (hn : i + 1 ≤ L.length) (h : CSInv L (i + 1) st) (b : Int) (f c : Bool) :
    CSInv L (i + 1)
      ⟨addCodeChunk st.chunks st.currentChunk st.chunkStart i,
        st.ranges ++ [(st.chunkStart, i)], [], i + 1, b, f, c⟩ := by
  obtain ⟨hcs, hcur, hjoin, hchunks⟩ := h
  have hslice : st.currentChunk = sliceJ L (st.chunkStart, i) := by
    rw [hcur]; rfl
  refine ⟨le_refl _, by simp, ?_, ?_⟩
  · show ((st.ranges ++ [(st.chunkStart, i)]).map (sliceJ L)).flatten
      = L.take (i + 1)
    rw [List.map_append, List.flatten_append, hjoin]
    simp only [List.map_cons, List.map_nil, List.flatten_cons,
      List.flatten_nil, List.append_nil]
    unfold sliceJ
    exact take_glue L st.chunkStart (i + 1) hcs
  · exact addCodeChunk_filterMap L st.chunks st.ranges _ _ _ hslice hchunks

/-- The function/class-end branch preserves the invariant. -/
lemma csClose_inv {L : List Str} {i : Nat} {st : CSState} {line : Str}
    (hn : i + 1 ≤ L.length) (h : CSInv L (i + 1) st) :
    CSInv L (i + 1) (csClose st i line) := by
  unfold csClose
  split
  · exact csFlush_inv hn h _ _ _
  · exact h

/-- The force-split branch preserves the invariant. -/
lemma csForce_inv {cfg : Config} {L : List Str} {i : Nat} {st : CSState}
    (hn : i + 1 ≤ L.length) (h : CSInv L (i + 1) st) :
    CSInv L (i + 1) (csForce cfg st i) := by
  unfold csForce
  split
  · exact csFlush_inv hn h _ _ _
  · exact h

/-- One full iteration of the structural splitter preserves the
invariant. -/
lemma csStep_inv {cfg : Config} {lang : Str} {L : List Str} {i : Nat}
    {st : CSState} (hin : i < L.length) (h : CSInv L i st) :
    CSInv L (i + 1) (csStep cfg lang st i L[i]) := by
  have h1 := csPush_inv hin h
  have hcs1 : (csPush st L[i]).chunkStart ≤ i := by
    simpa [csPush] using h.1
  have h2 := @csStructStart_inv L lang i _ hin hcs1 h1
  have h3 := @csClose_inv L i _ (L[i]) (by omega) h2
  exact csForce_inv (by omega) h3

/-- The structural splitter's loop establishes the invariant at the end of
the input. -/
lemma csLoop_inv (cfg : Config) (lang : Str) (L : List Str) :
    ∀ (rest : List Str) (i : Nat) (st : CSState),
      i ≤ L.length → L.drop i = rest → CSInv L i st →
      CSInv L L.length (csLoop cfg lang i rest st) := by
  intro rest
  induction rest with
  | nil =>
    intro i st hi hdrop h
    have hil : i = L.length := by
      have := congrArg List.length hdrop
      simp [List.length_drop] at this
      omega
    subst hil
    exact h
  | cons line rest ih =>
    intro i st hi hdrop h
    have hin : i < L.length := by
      by_contra hge
      have hd : L.drop i = [] := List.drop_eq_nil_of_le (by omega)
      rw [hd] at hdrop
      exact absurd hdrop.symm (List.cons_ne_nil _ _)
    have hline : L[i] = line := by
      have h0 : (L.drop i)[0]? = some line := by rw [hdrop]; simp
      rw [List.getElem?_drop] at h0
      have h1 : L[i + 0]? = some line := h0
      simpa [List.getElem?_eq_getElem hin] using h1
    have hrest : L.drop (i + 1) = rest := by
      have h2 : L.drop (i + 1) = (L.drop i).drop 1 := by
        rw [← List.drop_drop]
      rw [h2, hdrop]
      rfl
    simp only [csLoop]
    refine ih (i + 1) _ (by omega) hrest ?_
    rw [← hline]
    exact csStep_inv hin h

/-- Structural-splitter no-loss: the logged ranges tile the whole line
array (their slices concatenate back to it), and the emitted chunks are
exactly the non-whitespace attempts with the slice as content. -/
lemma codeStructure_no_loss (cfg : Config) (lang content : Str) :
    ((codeStructureFull cfg lang content).ranges.map
      (sliceJ (splitOnNl content))).flatten = splitOnNl content ∧
    (codeStructureFull cfg lang content).chunks =
      (codeStructureFull cfg lang content).ranges.filterMap
        (emitF (splitOnNl content)) := by
  obtain ⟨hcs, hcur, hjoin, hchunks⟩ :=
    csLoop_inv cfg lang (splitOnNl content) (splitOnNl content) 0
      ⟨[], [], [], 0, 0, false, false⟩ (by omega) (by simp)
      ⟨by simp, by simp, by simp, by simp⟩
  unfold codeStructureFull
  dsimp only
  split
  · next hne =>
    set st := csLoop cfg lang 0 (splitOnNl content)
      ⟨[], [], [], 0, 0, false, false⟩ with hst
    set L := splitOnNl content with hL
    have hlt : st.chunkStart < L.length := by
      by_contra hge
      have hz : L.length - st.chunkStart = 0 := by omega
      rw [hz] at hcur
      simp only [List.take_zero] at hcur
      rw [hcur] at hne
      simp at hne
    have hslice : st.currentChunk = sliceJ L (st.chunkStart, L.length - 1) := by
      rw [hcur]
      unfold sliceJ
      congr 1
      omega
    constructor
    · show ((st.ranges ++ [(st.chunkStart, L.length - 1)]).map (sliceJ L)).flatten
        = L
      rw [List.map_append, List.flatten_append, hjoin]
      simp only [List.map_cons, List.map_nil, List.flatten_cons,
        List.flatten_nil, List.append_nil]
      unfold sliceJ
      rw [show L.length - 1 + 1 - st.chunkStart = L.length - st.chunkStart
        from by omega]
      rw [take_glue L st.chunkStart L.length (by omega)]
      exact List.take_length L
    · exact addCodeChunk_filterMap L st.chunks st.ranges _ _ _ hslice hchunks
  · next hem =>
    set st := csLoop cfg lang 0 (splitOnNl content)
      ⟨[], [], [], 0, 0, false, false⟩ with hst
    set L := splitOnNl content with hL
    have hemp : st.currentChunk = [] := by
      cases hc : st.currentChunk with
      | nil => rfl
      | cons a t => rw [hc] at hem; simp at hem
    rw [hemp] at hcur
    have hcse : st.chunkStart = L.length :=
      slice_empty L st.chunkStart L.length hcs (le_refl _) hcur.symm
    refine ⟨?_, hchunks⟩
    rw [hjoin, hcse]
    exact List.take_length L

/-- C4: no-loss for both code splitters.  Structural splitter: the logged
chunk ranges, concatenated in order, reconstruct the original line sequence
exactly (no gaps, no overlap), and the emitted chunks are precisely the
attempts whose content is not whitespace-only, each carrying the verbatim
joined slice.  Line-fallback splitter: each chunk is the verbatim joined
slice of its range, and every input line lies in some chunk's range
(overlap from the retention window allowed, omission impossible). -/
theorem c4_no_loss (cfg : Config) (lang content : Str) (lines : List Str) :
    (((codeStructureFull cfg lang content).ranges.map
        (sliceJ (splitOnNl content))).flatten = splitOnNl content ∧
      (codeStructureFull cfg lang content).chunks =
        (codeStructureFull cfg lang content).ranges.filterMap
          (emitF (splitOnNl content))) ∧
    ((chunkByLinesFull cfg lines).chunks =
        (chunkByLinesFull cfg lines).ranges.map
          (fun r => joinNl (sliceJ lines r)) ∧
      (∀ j, j < lines.length →
        ∃ r ∈ (chunkByLinesFull cfg lines).ranges, r.1 ≤ j ∧ j ≤ r.2) ∧
      (∀ r ∈ (chunkByLinesFull cfg lines).ranges,
        r.1 ≤ r.2 ∧ r.2 < lines.length)) :=
  ⟨codeStructure_no_loss cfg lang content, chunkByLines_no_loss cfg lines⟩

/-- C4 witness: on a concrete one-line input the line-fallback splitter
covers line 0. -/
theorem c4_no_loss_witness :
    ∃ r ∈ (chunkByLinesFull ⟨5, 1⟩ ["aaaaaaaaaaaa".toList]).ranges,
      r.1 ≤ 0 ∧ 0 ≤ r.2 :=
  (c4_no_loss ⟨5, 1⟩ "typescript".toList "x".toList
    ["aaaaaaaaaaaa".toList]).2.2.1 0 (by decide)
